import Mathlib

/-!
# Verification of the cps842 retrieval/ranking engine

Shallow embedding, over exact rationals, of the core of the repository:

* `src/pagerank.py` and `src/task2/web_pagerank.py` — damped PageRank power
  iteration (`pageRankStep`, `power_iteration`, `webPowerIteration`);
* `src/task2/invert.py` and `src/task2/web_indexer.py` — the postings-list
  sort orders emitted by the two indexers (`invertSortPostings`,
  `webSortPostings`);
* `src/task1/search.py` — the query engine (`evaluateTerm`, the query-vector
  construction of `evaluate`, the pruned accumulation of `compare`
  (`compareSim`), `combine_scores`, the cached `load_pagerank_scores`, and
  `search`), plus the weight validation of `src/index.py` (`cliWeightsOk`);
* `src/task2/web_search.py` — the web query engine (`web_combine_scores`,
  `webSearch`).

Python floats are modelled as exact rationals (`ℚ`).  The transcendental
functions used by the source (`math.log` and `math.sqrt`) are abstracted as
explicit function parameters `lnQ : ℕ → ℚ` (the natural log applied to a
positive integer count) and `sqrtQ : ℚ → ℚ`; theorems that depend on their
analytic behaviour take the needed facts (strict monotonicity of the log,
non-negativity of the square root on non-negatives) as hypotheses.
Document ids are modelled as `ℕ` (the source stores them as decimal strings
or ints; their order is numeric).  Python dicts, which preserve insertion
order, are modelled as association lists without duplicate keys; Python's
stable `sorted(..., reverse=True)` is modelled by `List.mergeSort` with the
reflexive "greater or equal score" comparison, which is the same stable
descending sort.
-/

/-- Python `d.get(k, default)` on an insertion-ordered dict modelled as an
association list. -/
def lookupD [DecidableEq α] (l : List (α × ℚ)) (k : α) (d : ℚ) : ℚ :=
  match l with
  | [] => d
  | e :: rest => if e.1 = k then e.2 else lookupD rest k d

/-- Python `d.get(k)` (`None` when absent) on a dict modelled as an
association list. -/
def alookup [DecidableEq α] (l : List (α × β)) (k : α) : Option β :=
  match l with
  | [] => none
  | e :: rest => if e.1 = k then some e.2 else alookup rest k

/-- Keys of an association list, in insertion order. -/
def keysOf (l : List (α × β)) : List α := l.map Prod.fst

/-- Python `d[k] = d.get(k, 0) + v` on a `defaultdict(float)`: add `v` at key
`k`, appending a fresh entry at the end when the key is absent (dicts keep
insertion order). -/
def bump [DecidableEq α] (l : List (α × ℚ)) (k : α) (v : ℚ) : List (α × ℚ) :=
  match l with
  | [] => [(k, v)]
  | e :: rest => if e.1 = k then (e.1, e.2 + v) :: rest else e :: bump rest k v

/-- Accumulate a list of `(key, value)` contributions into an association
list, `bump`ing each in order (the inner accumulation loops of
`compare` in `src/task1/search.py` and of `WebSearchEngine.search`). -/
def bumpFold [DecidableEq α] (contribs : List (α × ℚ)) (acc : List (α × ℚ)) : List (α × ℚ) :=
  contribs.foldl (fun a p => bump a p.1 p.2) acc

/-! ## PageRank (`src/pagerank.py`, `src/task2/web_pagerank.py`) -/

/-- One iteration body of the PageRank power iteration
(`src/pagerank.py` lines 88–110 and `src/task2/web_pagerank.py` lines 57–68,
whose per-iteration arithmetic is identical).  `docs` is the known document
id list, `adj` the outlink sets (a missing key and an empty set are both
"dangling", matching Python's falsy `adjacency.get(doc)`), `d` the damping
factor.  Every document's new score is the random-jump term `(1-d)/n`, plus
the redistributed dangling share `d * dangling_mass / n`, plus one share
`d * rank(src) / out_degree(src)` for every source linking to it.  The
source's `target not in new_rank` branch creates entries for targets outside
`doc_ids`; when every adjacency target lies inside `doc_ids` (the hypothesis
of the mass-conservation claim) that branch is dead and the dict computed by
the source agrees with this function on `doc_ids`. -/
def pageRankStep (docs : List ℕ) (adj : ℕ → Finset ℕ) (d : ℚ) (rank : ℕ → ℚ) : ℕ → ℚ :=
  let n : ℚ := docs.length
  let danglingMass : ℚ := ((docs.filter fun s => adj s = ∅).map rank).sum
  let danglingShare : ℚ := d * danglingMass / n
  fun doc =>
    (1 - d) / n + danglingShare +
      ((docs.filter fun s => adj s ≠ ∅).map
        (fun s => if doc ∈ adj s then d * rank s / ((adj s).card : ℚ) else 0)).sum

/-- The rank vector after `k` iterations, starting from the uniform
distribution `1/n` (`rank = {doc: 1.0 / n for doc in doc_ids}`). -/
def pageRankIter (docs : List ℕ) (adj : ℕ → Finset ℕ) (d : ℚ) (k : ℕ) : ℕ → ℚ :=
  (pageRankStep docs adj d)^[k] (fun _ => 1 / (docs.length : ℚ))

/-- L1 delta between consecutive rank vectors over the known ids
(`delta = sum(abs(new_rank.get(doc, 0.0) - rank.get(doc, 0.0)) for doc in doc_ids)`). -/
def l1Delta (docs : List ℕ) (oldRank newRank : ℕ → ℚ) : ℚ :=
  (docs.map fun doc => |newRank doc - oldRank doc|).sum

/-- `delta > tol` where the initial `delta` is `float("inf")`, modelled as
`none`. -/
def deltaGT (delta : Option ℚ) (tol : ℚ) : Bool :=
  match delta with
  | none => true
  | some x => tol < x

/-- The `while iteration < max_iter and delta > tol` loop of
`power_iteration` in `src/pagerank.py`, with `fuel` the remaining iteration
budget. -/
def powerIterationLoop (docs : List ℕ) (adj : ℕ → Finset ℕ) (d tol : ℚ) :
    ℕ → (ℕ → ℚ) → ℕ → Option ℚ → ((ℕ → ℚ) × ℕ × Option ℚ)
  | 0, rank, iter, delta => (rank, iter, delta)
  | fuel + 1, rank, iter, delta =>
    if deltaGT delta tol then
      let newRank := pageRankStep docs adj d rank
      powerIterationLoop docs adj d tol fuel newRank (iter + 1)
        (some (l1Delta docs rank newRank))
    else (rank, iter, delta)

/-- `power_iteration` of `src/pagerank.py`: returns the rank dict (as an
association list over `doc_ids`), the iteration count and the final L1 delta
(`none` standing for the initial `float("inf")`).  An empty document set
returns `({}, 0, 0.0)` before any iteration. -/
def power_iteration (docs : List ℕ) (adj : ℕ → Finset ℕ) (damping : ℚ)
    (maxIter : ℕ) (tol : ℚ) : List (ℕ × ℚ) × ℕ × Option ℚ :=
  if docs.length = 0 then ([], 0, some 0)
  else
    let res := powerIterationLoop docs adj damping tol maxIter
      (fun _ => 1 / (docs.length : ℚ)) 0 none
    (docs.map fun doc => (doc, res.1 doc), res.2.1, res.2.2)

/-- The `for _ in range(max_iter)` loop of `power_iteration` in
`src/task2/web_pagerank.py`: always replaces the rank vector, then breaks
when `delta < tol`. -/
def webPowerIterationLoop (docs : List ℕ) (adj : ℕ → Finset ℕ) (d tol : ℚ) :
    ℕ → (ℕ → ℚ) → (ℕ → ℚ)
  | 0, rank => rank
  | fuel + 1, rank =>
    let newRank := pageRankStep docs adj d rank
    if l1Delta docs rank newRank < tol then newRank
    else webPowerIterationLoop docs adj d tol fuel newRank

/-- `power_iteration` of `src/task2/web_pagerank.py`: returns only the rank
dict; an empty document set returns `{}` before any iteration. -/
def webPowerIteration (docs : List ℕ) (adj : ℕ → Finset ℕ) (damping : ℚ)
    (maxIter : ℕ) (tol : ℚ) : List (ℕ × ℚ) :=
  if docs.length = 0 then []
  else
    let rank := webPowerIterationLoop docs adj damping tol maxIter
      (fun _ => 1 / (docs.length : ℚ))
    docs.map fun doc => (doc, rank doc)

/-! ## Postings sort orders (`src/task2/invert.py`, `src/task2/web_indexer.py`) -/

/-- The log-dampened term-frequency weight
`tf = 1 + math.log(f) if f > 0 else 0.0` shared by `invert.py` (`main`),
`search.py` (`evaluate`) and, on its domain `f ≥ 1`, by
`web_indexer.py`/`web_search.py` (`tf_weight = 1 + math.log(freq)`). -/
def tfWeight (lnQ : ℕ → ℚ) (f : ℕ) : ℚ :=
  if 0 < f then 1 + lnQ f else 0

/-- A posting of one term inside the indexers, as the pair
`(doc id, raw frequency)`; the derived weight is `tf * idf` where `idf` is
the term's (shared) inverse document frequency. -/
def postingWeight (lnQ : ℕ → ℚ) (idf : ℚ) (p : ℕ × ℕ) : ℚ :=
  tfWeight lnQ p.2 * idf

/-- The comparison used by `invert.py`'s
`sorted(docs_post.items(), key=lambda item: (item[1]['tf'], item[1]['weight'], -item[0]), reverse=True)`:
`a` may precede `b` iff the key tuple of `a` is lexicographically ≥ the key
tuple of `b` (so: `tf` descending, then `weight` descending, then doc id
ascending). -/
def invertKeyLE (lnQ : ℕ → ℚ) (idf : ℚ) (a b : ℕ × ℕ) : Bool :=
  let ta := tfWeight lnQ a.2
  let tb := tfWeight lnQ b.2
  let wa := ta * idf
  let wb := tb * idf
  decide (tb < ta) || (decide (ta = tb) &&
    (decide (wb < wa) || (decide (wa = wb) && decide (a.1 ≤ b.1))))

/-- `ordered_postings` of `invert.py` `main`: the postings of one term
(pairs `(doc id, raw frequency)`, in dict insertion order), stably sorted by
the code's key. -/
def invertSortPostings (lnQ : ℕ → ℚ) (idf : ℚ) (l : List (ℕ × ℕ)) : List (ℕ × ℕ) :=
  l.mergeSort (invertKeyLE lnQ idf)

/-- `postings[term] = sorted(postings_list, key=lambda item: item["weight"], reverse=True)`
of `web_indexer.py` `build_index`: a stable sort on the weight alone, so
equal-weight entries keep their corpus insertion order. -/
def webSortPostings (lnQ : ℕ → ℚ) (idf : ℚ) (l : List (ℕ × ℕ)) : List (ℕ × ℕ) :=
  l.mergeSort (fun a b => postingWeight lnQ idf b ≤ postingWeight lnQ idf a)

/-- The postings order stated by the specification: weight descending, ties
broken by higher raw frequency first, then by lower document id first. -/
def specPostingOrder (lnQ : ℕ → ℚ) (idf : ℚ) (a b : ℕ × ℕ) : Prop :=
  postingWeight lnQ idf b < postingWeight lnQ idf a ∨
    (postingWeight lnQ idf a = postingWeight lnQ idf b ∧
      (b.2 < a.2 ∨ (a.2 = b.2 ∧ a.1 < b.1)))

instance (lnQ : ℕ → ℚ) (idf : ℚ) (a b : ℕ × ℕ) :
    Decidable (specPostingOrder lnQ idf a b) := by
  unfold specPostingOrder; infer_instance

/-! ## Task 1 query engine (`src/task1/search.py`, `src/index.py`) -/

/-- One parsed postings-file line entry for a term, as `evaluateTerm` reads
it: document frequency `df`, inverse document frequency `idf`, and the
postings `(doc id, normalized weight nw)` in file order. -/
structure T1TermData where
  df : ℕ
  idf : ℚ
  postings : List (ℕ × ℚ)
deriving DecidableEq, Repr

/-- The parsed postings file: term → its line's data, in file order. -/
abbrev T1Index := List (String × T1TermData)

/-- `evaluateTerm(term, filename)` of `src/task1/search.py`: the term's line
of the postings file, or `df = 0`, `idf = 0`, no postings when the term does
not occur. -/
def evaluateTerm (idx : T1Index) (term : String) : T1TermData :=
  (alookup idx term).getD ⟨0, 0, []⟩

/-- `query_terms.count(term)`. -/
def qCount (qts : List String) (t : String) : ℕ := qts.count t

/-- The query-term weight `w = tf * idf` built by `evaluate`
(`tf = 1 + math.log(count) if count > 0 else 0`, `idf` looked up by
`evaluateTerm`). -/
def qWeight (lnQ : ℕ → ℚ) (idx : T1Index) (qts : List String) (t : String) : ℚ :=
  tfWeight lnQ (qCount qts t) * (evaluateTerm idx t).idf

/-- `vector['norm_sums']` after `evaluate`: `w²` is accumulated once per
query-term *occurrence* (the loop runs over `query_terms` with repetitions). -/
def qNormSums (lnQ : ℕ → ℚ) (idx : T1Index) (qts : List String) : ℚ :=
  (qts.map fun t => qWeight lnQ idx qts t ^ 2).sum

/-- `vector['norm'] = sqrt(norm_sums) if norm_sums > 0 else 0.0`; an empty
query never assigns `norm`, and the `defaultdict(float)` then yields `0.0`,
which coincides with this formula. -/
def qNorm (lnQ : ℕ → ℚ) (sqrtQ : ℚ → ℚ) (idx : T1Index) (qts : List String) : ℚ :=
  if 0 < qNormSums lnQ idx qts then sqrtQ (qNormSums lnQ idx qts) else 0

/-- The normalized query-term weight assigned inside `compare`:
`w / norm` when the norm is nonzero (Python's truthiness test), else `0.0`. -/
def qnw (lnQ : ℕ → ℚ) (sqrtQ : ℚ → ℚ) (idx : T1Index) (qts : List String) (t : String) : ℚ :=
  if qNorm lnQ sqrtQ idx qts ≠ 0 then qWeight lnQ idx qts t / qNorm lnQ sqrtQ idx qts else 0

/-- The distinct query terms in first-occurrence order: the iteration order
of the `vector['terms']` dict built by `evaluate`. -/
def dedupFirst : List String → List String
  | [] => []
  | x :: xs => x :: dedupFirst (xs.filter fun y => y ≠ x)
termination_by l => l.length
decreasing_by
  simp only [List.length_cons]
  exact Nat.lt_succ_of_le (List.length_filter_le _ _)

/-- The `sim[did] += postings[did]['nw'] * query_nw` contributions of one
query term inside `compare`: only the first `top_k` postings of the term's
champion list are examined (`if index >= top_k: break`). -/
def termContribs (lnQ : ℕ → ℚ) (sqrtQ : ℚ → ℚ) (idx : T1Index) (qts : List String)
    (topK : ℕ) (t : String) : List (ℕ × ℚ) :=
  ((evaluateTerm idx t).postings.take topK).map
    (fun p => (p.1, p.2 * qnw lnQ sqrtQ idx qts t))

/-- `compare(query_vector, filename, top_k)` of `src/task1/search.py`: the
`sim` defaultdict, in insertion order, accumulated term by term over each
term's first `top_k` postings. -/
def compareSim (lnQ : ℕ → ℚ) (sqrtQ : ℚ → ℚ) (idx : T1Index) (qts : List String)
    (topK : ℕ) : List (ℕ × ℚ) :=
  (dedupFirst qts).foldl (fun acc t => bumpFold (termContribs lnQ sqrtQ idx qts topK t) acc) []

/-- `combine_scores(sim, pagerank_scores, w_cos, w_pr)` of
`src/task1/search.py`: renormalize the fusion weights when their sum is
nonzero and off `1.0` by more than `1e-6`; return `sim` unchanged when no
rank vector is supplied (`None` or an empty dict) or the pagerank weight is
zero; otherwise fuse `w_cos * cos + w_pr * rank` with rank defaulting to 0. -/
def combine_scores (sim : List (ℕ × ℚ)) (pagerank : Option (List (ℕ × ℚ)))
    (wCos wPr : ℚ) : List (ℕ × ℚ) :=
  let ws := wCos + wPr
  let renorm := ws ≠ 0 ∧ 1 / 1000000 < |ws - 1|
  let wCos' := if renorm then wCos / ws else wCos
  let wPr' := if renorm then wPr / ws else wPr
  match pagerank with
  | none => sim
  | some prs =>
    if prs = [] ∨ wPr' = 0 then sim
    else sim.map fun p => (p.1, wCos' * p.2 + wPr' * lookupD prs p.1 0)

/-- `normalize_scores` / the min-max normalization inside
`load_pagerank_scores`: rescale to `[0, 1]`, all `1.0` when every raw score
is equal. -/
def minMaxNormalize (scores : List (ℕ × ℚ)) : List (ℕ × ℚ) :=
  match scores.map Prod.snd with
  | [] => []
  | v :: vs =>
    let vmin := vs.foldl min v
    let vmax := vs.foldl max v
    if 0 < vmax - vmin then
      scores.map fun p => (p.1, (p.2 - vmin) / (vmax - vmin))
    else scores.map fun p => (p.1, 1)

/-- The process-wide `_PAGERANK_CACHE` of `src/task1/search.py`, keyed by
`(path, normalize)`. -/
abbrev T1Cache := List ((String × Bool) × List (ℕ × ℚ))

/-- `load_pagerank_scores(path, normalize)` of `src/task1/search.py`,
explicit about its two effects: it reads the file system `fs` (modelled as
the parsed score list the parsing loop would produce from the file's current
contents) only on a cache miss, and it returns the possibly grown cache.
On a hit the cached scores are returned and `fs` is never consulted. -/
def load_pagerank_scores (fs : String → List (ℕ × ℚ)) (cache : T1Cache)
    (path : String) (normalize : Bool) : List (ℕ × ℚ) × T1Cache :=
  match alookup cache (path, normalize) with
  | some s => (s, cache)
  | none =>
    let scores := fs path
    let scores := if normalize ∧ scores ≠ [] then minMaxNormalize scores else scores
    (scores, cache ++ [((path, normalize), scores)])

/-- The rank vector `search` hands to `combine_scores`: loaded through the
cache only when a path is supplied and `w_pr != 0`
(`if pagerank_path and w_pr != 0.0` in `src/task1/search.py`). -/
def searchPrScores (fs : String → List (ℕ × ℚ)) (cache : T1Cache)
    (pagerankPath : Option String) (wPr : ℚ) (normalizePr : Bool) :
    Option (List (ℕ × ℚ)) :=
  match pagerankPath with
  | some p =>
    if wPr ≠ 0 then some (load_pagerank_scores fs cache p normalizePr).1 else none
  | none => none

/-- The cache as left behind by the `load_pagerank_scores` call of `search`
(unchanged when no path is supplied or `w_pr == 0`). -/
def searchCache (fs : String → List (ℕ × ℚ)) (cache : T1Cache)
    (pagerankPath : Option String) (wPr : ℚ) (normalizePr : Bool) : T1Cache :=
  match pagerankPath with
  | some p =>
    if wPr ≠ 0 then (load_pagerank_scores fs cache p normalizePr).2 else cache
  | none => cache

/-- `search(query_terms, filename, top_k, pagerank_path, w_cos, w_pr, normalize_pr)`
of `src/task1/search.py`: build the query vector and `sim`, load pagerank
scores through the cache only when a path is supplied and `w_pr != 0`, fuse,
and stably sort by final score descending (`sorted(..., reverse=True)`).
Returns the ranking and the (possibly mutated) process cache. -/
def search (lnQ : ℕ → ℚ) (sqrtQ : ℚ → ℚ) (fs : String → List (ℕ × ℚ))
    (cache : T1Cache) (idx : T1Index) (qts : List String) (topK : ℕ)
    (pagerankPath : Option String) (wCos wPr : ℚ) (normalizePr : Bool) :
    List (ℕ × ℚ) × T1Cache :=
  let sim := compareSim lnQ sqrtQ idx qts topK
  let combined := combine_scores sim
    (searchPrScores fs cache pagerankPath wPr normalizePr) wCos wPr
  (combined.mergeSort (fun a b => b.2 ≤ a.2),
    searchCache fs cache pagerankPath wPr normalizePr)

/-- The fusion-weight validation of `main` in `src/index.py`: `p.error` when
`|w1 + w2 - 1| > 1e-6` or when `w2 > 0` without `--pagerank`.  `true` means
the CLI accepts the configuration. -/
def cliWeightsOk (w1 w2 : ℚ) (pagerank : Option String) : Bool :=
  decide (|w1 + w2 - 1| ≤ 1 / 1000000) && !(decide (0 < w2) && pagerank.isNone)

/-! ## Web query engine (`src/task2/web_search.py`) -/

/-- `combine_scores(cos_scores, pr_scores, w1, w2)` of
`src/task2/web_search.py`: return the cosine scores unchanged when the rank
vector is empty or `w2 == 0`, else fuse with rank defaulting to 0. -/
def web_combine_scores (cos : List (ℕ × ℚ)) (pr : List (ℕ × ℚ)) (w1 w2 : ℚ) :
    List (ℕ × ℚ) :=
  if pr = [] ∨ w2 = 0 then cos
  else cos.map fun p => (p.1, w1 * p.2 + w2 * lookupD pr p.1 0)

/-- The `term_freqs` counting dict of `WebSearchEngine.search`, in token
insertion order. -/
def webTermFreqs (tokens : List String) : List (String × ℕ) :=
  tokens.foldl
    (fun acc t =>
      if (alookup acc t).isSome then
        acc.map fun p => if p.1 = t then (p.1, p.2 + 1) else p
      else acc ++ [(t, 1)])
    []

/-- `WebSearchEngine.search` of `src/task2/web_search.py`, modelled from its
already-prepared token list (tokenization, stopwording and stemming are the
external `_prepare_tokens`): build query weights from the dictionary
(`term → idf`; unseen terms are skipped), fail closed on an empty weight set
or a zero query norm, score *all* postings of each query term, divide by
`doc_norm * query_norm` (skipping documents with a falsy norm), optionally
min-max-normalize the supplied rank vector (`none` models no pagerank path),
fuse, stably sort by score descending, and truncate the returned list to
`top_k` (`ranked = sorted(...)[:top_k]`).  The metadata enrichment of the
returned entries is presentation only and is not modelled. -/
def webSearch (lnQ : ℕ → ℚ) (sqrtQ : ℚ → ℚ) (dict : List (String × ℚ))
    (postings : List (String × List (ℕ × ℚ))) (docNorms : List (ℕ × ℚ))
    (tokens : List String) (topK : ℕ) (pr : Option (List (ℕ × ℚ)))
    (w1 w2 : ℚ) (normalizePr : Bool) : List (ℕ × ℚ) :=
  if tokens = [] then []
  else
    let termFreqs := webTermFreqs tokens
    let queryWeights := termFreqs.filterMap fun p =>
      (alookup dict p.1).map fun idf => (p.1, tfWeight lnQ p.2 * idf)
    let queryNorm := sqrtQ (queryWeights.map fun p => p.2 ^ 2).sum
    if queryWeights = [] ∨ queryNorm = 0 then []
    else
      let scores := queryWeights.foldl
        (fun acc p =>
          bumpFold (((alookup postings p.1).getD []).map
            fun q => (q.1, p.2 * q.2)) acc) []
      let cosScores := scores.filterMap fun p =>
        let dn := (alookup docNorms p.1).getD 0
        if dn = 0 then none else some (p.1, p.2 / (dn * queryNorm))
      let prS := match pr with
        | none => []
        | some s => if normalizePr then minMaxNormalize s else s
      let combined := web_combine_scores cosScores prS w1 w2
      (combined.mergeSort (fun a b => b.2 ≤ a.2)).take topK

/-! ## Helper lemmas on association lists -/

theorem lookupD_bump_self [DecidableEq α] (l : List (α × ℚ)) (k : α) (v : ℚ) :
    lookupD (bump l k v) k 0 = lookupD l k 0 + v := by
  induction l with
  | nil => simp [bump, lookupD]
  | cons e rest ih =>
    by_cases h : e.1 = k
    · simp [bump, lookupD, h]
    · simpa [bump, lookupD, h] using ih

theorem lookupD_bump_ne [DecidableEq α] (l : List (α × ℚ)) (k k' : α) (v d : ℚ)
    (h : k' ≠ k) : lookupD (bump l k v) k' d = lookupD l k' d := by
  induction l with
  | nil => simp [bump, lookupD, Ne.symm h]
  | cons e rest ih =>
    by_cases hp : e.1 = k
    · have h1 : e.1 ≠ k' := fun hh => h (hh.symm.trans hp)
      simp [bump, lookupD, hp, h1, Ne.symm h]
    · by_cases hk : e.1 = k'
      · simp [bump, lookupD, hp, hk, h]
      · simpa [bump, lookupD, hp, hk] using ih

theorem mem_keysOf_bump [DecidableEq α] (l : List (α × ℚ)) (k k' : α) (v : ℚ) :
    k' ∈ keysOf (bump l k v) ↔ k' ∈ keysOf l ∨ k' = k := by
  induction l with
  | nil => simp [bump, keysOf]
  | cons e rest ih =>
    by_cases hp : e.1 = k
    · simp only [bump, if_pos hp, keysOf, List.map_cons, List.mem_cons]
      constructor
      · rintro (h | h)
        · exact Or.inl (Or.inl h)
        · exact Or.inl (Or.inr h)
      · rintro ((h | h) | h)
        · exact Or.inl h
        · exact Or.inr h
        · exact Or.inl (h.trans hp.symm)
    · simp only [bump, if_neg hp, keysOf, List.map_cons, List.mem_cons] at ih ⊢
      rw [ih]
      tauto

theorem lookupD_bumpFold [DecidableEq α] (contribs : List (α × ℚ))
    (acc : List (α × ℚ)) (k : α) :
    lookupD (bumpFold contribs acc) k 0 =
      lookupD acc k 0 + ((contribs.filter fun p => p.1 = k).map Prod.snd).sum := by
  induction contribs generalizing acc with
  | nil => simp [bumpFold, List.foldl_nil]
  | cons p rest ih =>
    simp only [bumpFold, List.foldl_cons] at ih ⊢
    rw [ih (bump acc p.1 p.2), List.filter_cons]
    by_cases h : p.1 = k
    · rw [h] at *
      rw [lookupD_bump_self]
      simp [h, add_assoc, add_comm p.2]
    · rw [lookupD_bump_ne _ _ _ _ _ (Ne.symm h)]
      simp [h]

theorem mem_keysOf_bumpFold [DecidableEq α] (contribs : List (α × ℚ))
    (acc : List (α × ℚ)) (k : α) :
    k ∈ keysOf (bumpFold contribs acc) ↔ k ∈ keysOf acc ∨ k ∈ keysOf contribs := by
  induction contribs generalizing acc with
  | nil => simp [bumpFold, keysOf]
  | cons p rest ih =>
    simp only [bumpFold, List.foldl_cons] at ih ⊢
    rw [ih (bump acc p.1 p.2), mem_keysOf_bump]
    simp only [keysOf, List.map_cons, List.mem_cons]
    tauto

/-! ## C10: empty document set -/

/-- **C10** — For the empty document set, `power_iteration` of
`src/pagerank.py` returns the empty rank vector, iteration count 0 and final
delta 0.0 (its early `if n == 0: return {}, 0, 0.0`), and `power_iteration`
of `src/task2/web_pagerank.py` returns the empty rank vector (its early
`if n == 0: return {}`), for every damping factor, iteration budget and
tolerance. -/
theorem empty_docs_power_iteration (adj : ℕ → Finset ℕ) (damping : ℚ)
    (maxIter : ℕ) (tol : ℚ) :
    power_iteration [] adj damping maxIter tol = ([], 0, some 0) ∧
      webPowerIteration [] adj damping maxIter tol = [] := by
  exact ⟨rfl, rfl⟩

/-! ## C1: mass conservation of the power iteration -/

theorem pageRankStep_sum (docs : List ℕ) (adj : ℕ → Finset ℕ) (d : ℚ) (rank : ℕ → ℚ)
    (hne : docs ≠ []) (hnd : docs.Nodup)
    (hclosed : ∀ s ∈ docs, adj s ⊆ docs.toFinset)
    (hsum : (docs.map rank).sum = 1) :
    (docs.map (pageRankStep docs adj d rank)).sum = 1 := by
  classical
  have hn0 : docs.length ≠ 0 := fun h => hne (List.length_eq_zero.mp h)
  have hn : ((docs.length : ℚ)) ≠ 0 := Nat.cast_ne_zero.mpr hn0
  have hlist : ∀ f : ℕ → ℚ, (docs.map f).sum = ∑ x ∈ docs.toFinset, f x :=
    fun f => (List.sum_toFinset f hnd).symm
  have hfl : ∀ (p : ℕ → Prop) (_ : DecidablePred p) (f : ℕ → ℚ),
      ((docs.filter fun s => p s).map f).sum = ∑ x ∈ docs.toFinset.filter p, f x := by
    intro p hp f
    rw [← List.sum_toFinset f (hnd.filter _)]
    congr 1
    ext x
    simp [List.mem_filter]
  have hcard : (docs.toFinset.card : ℚ) = (docs.length : ℚ) := by
    exact_mod_cast congrArg Nat.cast (List.toFinset_card_of_nodup hnd)
  have hstep : ∀ x, pageRankStep docs adj d rank x =
      ((1 - d) / (docs.length : ℚ) +
        d * ((docs.filter fun s => adj s = ∅).map rank).sum / (docs.length : ℚ)) +
      ((docs.filter fun s => adj s ≠ ∅).map
        (fun s => if x ∈ adj s then d * rank s / ((adj s).card : ℚ) else 0)).sum := by
    intro x; rfl
  have hSsum : ∑ x ∈ docs.toFinset, rank x = 1 := by rw [← hlist]; exact hsum
  have hdm : ((docs.filter fun s => adj s = ∅).map rank).sum =
      ∑ s ∈ docs.toFinset.filter (fun s => adj s = ∅), rank s :=
    hfl _ _ rank
  rw [hlist]
  have h1 : ∀ x ∈ docs.toFinset, pageRankStep docs adj d rank x =
      ((1 - d) / (docs.length : ℚ) +
        d * ((docs.filter fun s => adj s = ∅).map rank).sum / (docs.length : ℚ)) +
      ∑ s ∈ docs.toFinset.filter (fun s => adj s ≠ ∅),
        (if x ∈ adj s then d * rank s / ((adj s).card : ℚ) else 0) := by
    intro x _
    rw [hstep x, hfl (fun s => adj s ≠ ∅) _ _]
  rw [Finset.sum_congr rfl h1, Finset.sum_add_distrib, Finset.sum_const, Finset.sum_comm]
  have hinner : ∀ s ∈ docs.toFinset.filter (fun s => adj s ≠ ∅),
      (∑ x ∈ docs.toFinset, if x ∈ adj s then d * rank s / ((adj s).card : ℚ) else 0)
        = d * rank s := by
    intro s hs
    rcases Finset.mem_filter.mp hs with ⟨hsS, hsne⟩
    have hsub : adj s ⊆ docs.toFinset := hclosed s (List.mem_toFinset.mp hsS)
    have hcardpos : 0 < (adj s).card :=
      Finset.card_pos.mpr (Finset.nonempty_iff_ne_empty.mpr hsne)
    have hcne : ((adj s).card : ℚ) ≠ 0 := by
      exact_mod_cast Nat.pos_iff_ne_zero.mp hcardpos
    rw [Finset.sum_ite_mem, Finset.inter_eq_right.mpr hsub, Finset.sum_const,
      nsmul_eq_mul]
    field_simp
  rw [Finset.sum_congr rfl hinner]
  have hpart : ∑ s ∈ docs.toFinset.filter (fun s => adj s = ∅), rank s +
      ∑ s ∈ docs.toFinset.filter (fun s => adj s ≠ ∅), rank s =
      ∑ s ∈ docs.toFinset, rank s := by
    have := Finset.sum_filter_add_sum_filter_not docs.toFinset
      (fun s => adj s = ∅) rank
    simpa [ne_eq] using this
  have hnd' : ∑ s ∈ docs.toFinset.filter (fun s => adj s ≠ ∅), rank s =
      1 - ∑ s ∈ docs.toFinset.filter (fun s => adj s = ∅), rank s := by
    rw [← hSsum, ← hpart]; ring
  rw [← Finset.mul_sum, hnd', hdm, nsmul_eq_mul, hcard]
  field_simp
  ring

/-- **C1** — For every nonempty, duplicate-free document list whose
adjacency targets all lie among the known ids, the rank vector after every
iteration of the power iteration of `src/pagerank.py`/
`src/task2/web_pagerank.py` (and also the initial uniform vector) sums to
exactly 1 over all documents: the random-jump terms `(1-d)/N`, the dangling
shares `d*dangling_mass/N` and the per-edge shares `d*rank(src)/out_degree`
conserve total probability mass (exact in rational arithmetic, "within
floating-point tolerance" in the source's floats). -/
theorem pagerank_mass_conservation (docs : List ℕ) (adj : ℕ → Finset ℕ) (d : ℚ)
    (k : ℕ) (hne : docs ≠ []) (hnd : docs.Nodup)
    (hclosed : ∀ s ∈ docs, adj s ⊆ docs.toFinset) :
    (docs.map (pageRankIter docs adj d k)).sum = 1 := by
  induction k with
  | zero =>
    have hn0 : docs.length ≠ 0 := fun h => hne (List.length_eq_zero.mp h)
    have hn : ((docs.length : ℚ)) ≠ 0 := Nat.cast_ne_zero.mpr hn0
    simp only [pageRankIter, Function.iterate_zero, id_eq]
    rw [List.map_const', List.sum_replicate, nsmul_eq_mul]
    field_simp
  | succ k ih =>
    simp only [pageRankIter, Function.iterate_succ_apply'] at ih ⊢
    exact pageRankStep_sum docs adj d _ hne hnd hclosed ih

/-- Witness for C1 at a concrete two-document graph (`1 → 2`, damping
`17/20`, three iterations). -/
theorem pagerank_mass_conservation_witness :
    (([1, 2] : List ℕ) ≠ []) ∧ ([1, 2] : List ℕ).Nodup ∧
      (∀ s ∈ ([1, 2] : List ℕ),
        (fun t => if t = 1 then ({2} : Finset ℕ) else ∅) s ⊆ ([1, 2] : List ℕ).toFinset) ∧
      (([1, 2] : List ℕ).map
        (pageRankIter [1, 2] (fun t => if t = 1 then {2} else ∅) (17/20) 3)).sum = 1 :=
  ⟨by decide, by decide, by decide,
    pagerank_mass_conservation _ _ _ _ (by decide) (by decide) (by decide)⟩

/-! ## C2: postings sort order of the two indexers -/

theorem invertKeyLE_iff (lnQ : ℕ → ℚ) (idf : ℚ) (a b : ℕ × ℕ) :
    invertKeyLE lnQ idf a b = true ↔
      (tfWeight lnQ b.2 < tfWeight lnQ a.2 ∨
        (tfWeight lnQ a.2 = tfWeight lnQ b.2 ∧
          (tfWeight lnQ b.2 * idf < tfWeight lnQ a.2 * idf ∨
            (tfWeight lnQ a.2 * idf = tfWeight lnQ b.2 * idf ∧ a.1 ≤ b.1)))) := by
  simp [invertKeyLE]

theorem invertKeyLE_trans (lnQ : ℕ → ℚ) (idf : ℚ) (a b c : ℕ × ℕ)
    (hab : invertKeyLE lnQ idf a b = true) (hbc : invertKeyLE lnQ idf b c = true) :
    invertKeyLE lnQ idf a c = true := by
  rw [invertKeyLE_iff] at *
  rcases hab with h1 | ⟨h1, h2 | ⟨h2, h3⟩⟩ <;>
    rcases hbc with g1 | ⟨g1, g2 | ⟨g2, g3⟩⟩
  all_goals first
    | exact Or.inl (by linarith)
    | exact Or.inr ⟨by linarith, Or.inl (by linarith)⟩
    | exact Or.inr ⟨by linarith, Or.inr ⟨by linarith, le_trans h3 g3⟩⟩

theorem invertKeyLE_total (lnQ : ℕ → ℚ) (idf : ℚ) (a b : ℕ × ℕ) :
    (invertKeyLE lnQ idf a b || invertKeyLE lnQ idf b a) = true := by
  rcases lt_trichotomy (tfWeight lnQ a.2) (tfWeight lnQ b.2) with h | h | h
  · simp [invertKeyLE_iff, h]
  · have hw : tfWeight lnQ a.2 * idf = tfWeight lnQ b.2 * idf := by rw [h]
    rcases Nat.le_total a.1 b.1 with hd | hd <;> simp [invertKeyLE_iff, h, hw, hd]
  · simp [invertKeyLE_iff, h]

theorem tfWeight_lt_of_lt (lnQ : ℕ → ℚ)
    (hln : ∀ x y : ℕ, 0 < x → x < y → lnQ x < lnQ y) {x y : ℕ}
    (hx : 0 < x) (hxy : x < y) : tfWeight lnQ x < tfWeight lnQ y := by
  have hy : 0 < y := lt_trans hx hxy
  simp only [tfWeight, if_pos hx, if_pos hy]
  exact add_lt_add_left (hln x y hx hxy) 1

theorem tfWeight_eq_freq_eq (lnQ : ℕ → ℚ)
    (hln : ∀ x y : ℕ, 0 < x → x < y → lnQ x < lnQ y) {x y : ℕ}
    (hx : 0 < x) (hy : 0 < y) (h : tfWeight lnQ x = tfWeight lnQ y) : x = y := by
  rcases lt_trichotomy x y with g | g | g
  · exact absurd h (ne_of_lt (tfWeight_lt_of_lt lnQ hln hx g))
  · exact g
  · exact absurd h.symm (ne_of_lt (tfWeight_lt_of_lt lnQ hln hy g))

theorem tfWeight_lt_freq_lt (lnQ : ℕ → ℚ)
    (hln : ∀ x y : ℕ, 0 < x → x < y → lnQ x < lnQ y) {x y : ℕ}
    (hx : 0 < x) (_hy : 0 < y) (h : tfWeight lnQ y < tfWeight lnQ x) : y < x := by
  rcases lt_trichotomy x y with g | g | g
  · exact absurd (tfWeight_lt_of_lt lnQ hln hx g) (asymm h)
  · exact absurd h (g ▸ lt_irrefl _)
  · exact g

theorem invertKeyLE_spec (lnQ : ℕ → ℚ) (idf : ℚ)
    (hln : ∀ x y : ℕ, 0 < x → x < y → lnQ x < lnQ y) (hidf : 0 ≤ idf)
    {a b : ℕ × ℕ} (ha : 0 < a.2) (hb : 0 < b.2) (hne : a.1 ≠ b.1)
    (hle : invertKeyLE lnQ idf a b = true) : specPostingOrder lnQ idf a b := by
  rw [invertKeyLE_iff] at hle
  rcases hle with h1 | ⟨h1, h2 | ⟨h2, h3⟩⟩
  · have hfreq : b.2 < a.2 := tfWeight_lt_freq_lt lnQ hln ha hb h1
    rcases lt_or_eq_of_le hidf with hpos | hzero
    · exact Or.inl (by
        unfold postingWeight
        exact mul_lt_mul_of_pos_right h1 hpos)
    · refine Or.inr ⟨?_, Or.inl hfreq⟩
      unfold postingWeight
      rw [← hzero, mul_zero, mul_zero]
  · exact absurd h2 (by rw [h1]; exact lt_irrefl _)
  · have hfreq : a.2 = b.2 := tfWeight_eq_freq_eq lnQ hln ha hb h1
    exact Or.inr ⟨h2, Or.inr ⟨hfreq, lt_of_le_of_ne h3 hne⟩⟩

/-- The **C2 counterexample** — `build_index` in `src/task2/web_indexer.py`
sorts a term's postings by weight alone (stable), so two equal-weight
postings keep corpus insertion order: with postings `[(5, 1), (2, 1)]`
(doc 5 first in the corpus, both raw frequency 1, hence equal weight) the
emitted order keeps doc 5 before doc 2, violating the claimed "ties broken
by higher raw frequency first and then by lower document id first". -/
theorem web_postings_tie_not_docid_sorted :
    ¬ List.Pairwise (specPostingOrder (fun _ => 0) 1)
      (webSortPostings (fun _ => 0) 1 [(5, 1), (2, 1)]) := by
  have heval : webSortPostings (fun _ => 0) 1 [(5, 1), (2, 1)] = [(5, 1), (2, 1)] := by
    simp [webSortPostings, List.mergeSort, postingWeight, tfWeight]
  rw [heval]
  intro h
  have := (List.pairwise_cons.mp h).1 (2, 1) (by simp)
  simp [specPostingOrder, postingWeight, tfWeight] at this

/-- **C2** (amended) — For the CACM indexer (`invert.py`), whose sort key is
`(tf, weight, -doc_id)` descending, the emitted postings of a term (distinct
doc ids, positive raw frequencies, shared non-negative idf, strictly
monotone log) are sorted exactly as the claim states: weight descending,
ties by higher raw frequency first, then by lower doc id first.  The web
indexer (`web_indexer.py`) guarantees only weight descending; equal-weight
postings keep corpus insertion order instead of doc-id order (see the
counterexample). -/
theorem postings_sort_order (lnQ : ℕ → ℚ) (idf : ℚ) (l : List (ℕ × ℕ))
    (hln : ∀ x y : ℕ, 0 < x → x < y → lnQ x < lnQ y)
    (hidf : 0 ≤ idf)
    (hf : ∀ p ∈ l, 0 < p.2)
    (hnd : (l.map Prod.fst).Nodup) :
    List.Pairwise (specPostingOrder lnQ idf) (invertSortPostings lnQ idf l) ∧
      ∀ (lnQ' : ℕ → ℚ) (idf' : ℚ) (l' : List (ℕ × ℕ)),
        List.Pairwise (fun a b => postingWeight lnQ' idf' b ≤ postingWeight lnQ' idf' a)
          (webSortPostings lnQ' idf' l') := by
  constructor
  · have hsorted := List.sorted_mergeSort
      (invertKeyLE_trans lnQ idf) (invertKeyLE_total lnQ idf) l
    have hperm := List.mergeSort_perm l (invertKeyLE lnQ idf)
    have hnd2 : ((l.mergeSort (invertKeyLE lnQ idf)).map Prod.fst).Nodup :=
      ((hperm.map Prod.fst).nodup_iff).mpr hnd
    have hpw_ne : List.Pairwise (fun a b : ℕ × ℕ => a.1 ≠ b.1)
        (l.mergeSort (invertKeyLE lnQ idf)) := List.pairwise_map.mp hnd2
    have hf2 : ∀ p ∈ l.mergeSort (invertKeyLE lnQ idf), 0 < p.2 :=
      fun p hp => hf p (hperm.subset hp)
    unfold invertSortPostings
    refine List.Pairwise.imp_of_mem ?_ (hsorted.and hpw_ne)
    intro a b ha hb hab
    exact invertKeyLE_spec lnQ idf hln hidf (hf2 a ha) (hf2 b hb) hab.2 hab.1
  · intro lnQ' idf' l'
    have htrans : ∀ a b c : ℕ × ℕ,
        (decide (postingWeight lnQ' idf' b ≤ postingWeight lnQ' idf' a)) = true →
        (decide (postingWeight lnQ' idf' c ≤ postingWeight lnQ' idf' b)) = true →
        (decide (postingWeight lnQ' idf' c ≤ postingWeight lnQ' idf' a)) = true := by
      intro a b c h1 h2
      simp only [decide_eq_true_eq] at *
      exact le_trans h2 h1
    have htotal : ∀ a b : ℕ × ℕ,
        ((decide (postingWeight lnQ' idf' b ≤ postingWeight lnQ' idf' a)) ||
          (decide (postingWeight lnQ' idf' a ≤ postingWeight lnQ' idf' b))) = true := by
      intro a b
      simp only [Bool.or_eq_true, decide_eq_true_eq]
      exact le_total _ _
    have hsorted := List.sorted_mergeSort htrans htotal l'
    unfold webSortPostings
    exact hsorted.imp (by intro a b h; simpa using h)

/-- Witness for C2 (amended) at `lnQ = Nat.cast`, `idf = 1`, postings
`[(2, 1), (5, 2)]`. -/
theorem postings_sort_order_witness :
    (∀ x y : ℕ, 0 < x → x < y → ((x : ℚ)) < (y : ℚ)) ∧ ((0 : ℚ) ≤ 1) ∧
      (∀ p ∈ [(2, 1), (5, 2)], 0 < p.2) ∧
      (([(2, 1), (5, 2)].map (Prod.fst (α := ℕ) (β := ℕ))).Nodup) ∧
      (List.Pairwise (specPostingOrder (fun n => (n : ℚ)) 1)
        (invertSortPostings (fun n => (n : ℚ)) 1 [(2, 1), (5, 2)]) ∧
        ∀ (lnQ' : ℕ → ℚ) (idf' : ℚ) (l' : List (ℕ × ℕ)),
          List.Pairwise (fun a b => postingWeight lnQ' idf' b ≤ postingWeight lnQ' idf' a)
            (webSortPostings lnQ' idf' l')) :=
  ⟨fun x y _ h => Nat.cast_lt.mpr h, by decide, by decide, by decide,
    postings_sort_order (fun n => (n : ℚ)) 1 [(2, 1), (5, 2)]
      (fun x y _ h => Nat.cast_lt.mpr h) (by decide) (by decide) (by decide)⟩

/-! ## Characterizing `compare`'s accumulated similarity map -/

theorem lookupD_foldl_bumpFold (F : String → List (ℕ × ℚ)) (ts : List String)
    (acc : List (ℕ × ℚ)) (did : ℕ) :
    lookupD (ts.foldl (fun a t => bumpFold (F t) a) acc) did 0 =
      lookupD acc did 0 +
        (ts.map fun t => (((F t).filter fun p => p.1 = did).map Prod.snd).sum).sum := by
  induction ts generalizing acc with
  | nil => simp
  | cons t rest ih =>
    simp only [List.foldl_cons, List.map_cons, List.sum_cons]
    rw [ih, lookupD_bumpFold]
    ring

theorem mem_keysOf_foldl_bumpFold (F : String → List (ℕ × ℚ)) (ts : List String)
    (acc : List (ℕ × ℚ)) (did : ℕ) :
    did ∈ keysOf (ts.foldl (fun a t => bumpFold (F t) a) acc) ↔
      did ∈ keysOf acc ∨ ∃ t ∈ ts, did ∈ keysOf (F t) := by
  induction ts generalizing acc with
  | nil => simp
  | cons t rest ih =>
    simp only [List.foldl_cons]
    rw [ih, mem_keysOf_bumpFold]
    simp only [List.mem_cons]
    constructor
    · rintro ((h | h) | ⟨t', ht', h⟩)
      · exact Or.inl h
      · exact Or.inr ⟨t, Or.inl rfl, h⟩
      · exact Or.inr ⟨t', Or.inr ht', h⟩
    · rintro (h | ⟨t', (rfl | ht'), h⟩)
      · exact Or.inl (Or.inl h)
      · exact Or.inl (Or.inr h)
      · exact Or.inr ⟨t', ht', h⟩

theorem lookupD_compareSim (lnQ : ℕ → ℚ) (sqrtQ : ℚ → ℚ) (idx : T1Index)
    (qts : List String) (topK : ℕ) (did : ℕ) :
    lookupD (compareSim lnQ sqrtQ idx qts topK) did 0 =
      ((dedupFirst qts).map fun t =>
        (((termContribs lnQ sqrtQ idx qts topK t).filter fun p => p.1 = did).map
          Prod.snd).sum).sum := by
  unfold compareSim
  rw [lookupD_foldl_bumpFold]
  simp [lookupD]

theorem mem_keysOf_compareSim (lnQ : ℕ → ℚ) (sqrtQ : ℚ → ℚ) (idx : T1Index)
    (qts : List String) (topK : ℕ) (did : ℕ) :
    did ∈ keysOf (compareSim lnQ sqrtQ idx qts topK) ↔
      ∃ t ∈ dedupFirst qts, did ∈ keysOf (termContribs lnQ sqrtQ idx qts topK t) := by
  unfold compareSim
  rw [mem_keysOf_foldl_bumpFold]
  simp [keysOf]

/-! ## C7: pruning monotonicity -/

theorem tfWeight_nonneg (lnQ : ℕ → ℚ) (hln : ∀ f : ℕ, 0 ≤ lnQ f) (f : ℕ) :
    0 ≤ tfWeight lnQ f := by
  unfold tfWeight
  split
  · linarith [hln f]
  · exact le_refl 0

theorem qWeight_nonneg (lnQ : ℕ → ℚ) (idx : T1Index) (qts : List String) (t : String)
    (hln : ∀ f : ℕ, 0 ≤ lnQ f) (hidf : ∀ t', 0 ≤ (evaluateTerm idx t').idf) :
    0 ≤ qWeight lnQ idx qts t :=
  mul_nonneg (tfWeight_nonneg lnQ hln _) (hidf t)

theorem qNorm_nonneg (lnQ : ℕ → ℚ) (sqrtQ : ℚ → ℚ) (idx : T1Index) (qts : List String)
    (hsq : ∀ x : ℚ, 0 ≤ x → 0 ≤ sqrtQ x) : 0 ≤ qNorm lnQ sqrtQ idx qts := by
  unfold qNorm
  split
  · next h => exact hsq _ (le_of_lt h)
  · exact le_refl 0

theorem qnw_nonneg (lnQ : ℕ → ℚ) (sqrtQ : ℚ → ℚ) (idx : T1Index) (qts : List String)
    (t : String) (hln : ∀ f : ℕ, 0 ≤ lnQ f)
    (hidf : ∀ t', 0 ≤ (evaluateTerm idx t').idf)
    (hsq : ∀ x : ℚ, 0 ≤ x → 0 ≤ sqrtQ x) : 0 ≤ qnw lnQ sqrtQ idx qts t := by
  unfold qnw
  split
  · exact div_nonneg (qWeight_nonneg lnQ idx qts t hln hidf)
      (qNorm_nonneg lnQ sqrtQ idx qts hsq)
  · exact le_refl 0

/-- **C7** — Increasing the per-term candidate cap from `K1` to `K2 ≥ K1`
never lowers any document's accumulated cosine score in `compare` of
`src/task1/search.py` and never removes a surfaced candidate, given
non-negative tf-idf data (non-negative log, non-negative idf entries,
non-negative stored normalized weights, and a square root that is
non-negative on non-negatives). -/
theorem pruning_monotonicity (lnQ : ℕ → ℚ) (sqrtQ : ℚ → ℚ) (idx : T1Index)
    (qts : List String) (K1 K2 : ℕ)
    (hln : ∀ f : ℕ, 0 ≤ lnQ f)
    (hidf : ∀ t, 0 ≤ (evaluateTerm idx t).idf)
    (hsq : ∀ x : ℚ, 0 ≤ x → 0 ≤ sqrtQ x)
    (hpost : ∀ t, ∀ p ∈ (evaluateTerm idx t).postings, 0 ≤ p.2)
    (hK : K1 ≤ K2) :
    (∀ did, lookupD (compareSim lnQ sqrtQ idx qts K1) did 0 ≤
        lookupD (compareSim lnQ sqrtQ idx qts K2) did 0) ∧
      ∀ did, did ∈ keysOf (compareSim lnQ sqrtQ idx qts K1) →
        did ∈ keysOf (compareSim lnQ sqrtQ idx qts K2) := by
  have htake : ∀ t : String, (evaluateTerm idx t).postings.take K2 =
      (evaluateTerm idx t).postings.take K1 ++
        ((evaluateTerm idx t).postings.take K2).drop K1 := by
    intro t
    conv_lhs => rw [← List.take_append_drop K1 ((evaluateTerm idx t).postings.take K2)]
    rw [List.take_take, min_eq_left hK]
  constructor
  · intro did
    rw [lookupD_compareSim, lookupD_compareSim]
    apply List.sum_le_sum
    intro t _
    unfold termContribs
    rw [htake t, List.map_append, List.filter_append, List.map_append, List.sum_append]
    have hex : 0 ≤ ((((((evaluateTerm idx t).postings.take K2).drop K1).map
        (fun p => (p.1, p.2 * qnw lnQ sqrtQ idx qts t))).filter
          fun p => p.1 = did).map Prod.snd).sum := by
      apply List.sum_nonneg
      intro x hx
      simp only [List.mem_map, List.mem_filter] at hx
      obtain ⟨p, ⟨hp, _⟩, rfl⟩ := hx
      obtain ⟨q, hq, rfl⟩ := hp
      have hqmem : q ∈ (evaluateTerm idx t).postings :=
        List.take_subset _ _ (List.drop_subset _ _ hq)
      exact mul_nonneg (hpost t q hqmem)
        (qnw_nonneg lnQ sqrtQ idx qts t hln hidf hsq)
    linarith
  · intro did h1
    rw [mem_keysOf_compareSim] at h1 ⊢
    obtain ⟨t, ht, hmem⟩ := h1
    refine ⟨t, ht, ?_⟩
    unfold termContribs keysOf at hmem ⊢
    rw [List.map_map] at hmem ⊢
    have hsub : ((evaluateTerm idx t).postings.take K1).Sublist
        ((evaluateTerm idx t).postings.take K2) := by
      have := List.take_sublist K1 ((evaluateTerm idx t).postings.take K2)
      rwa [List.take_take, min_eq_left hK] at this
    exact (hsub.map _).subset hmem

/-- Witness for C7 at a concrete one-term index, caps `1 ≤ 2`. -/
theorem pruning_monotonicity_witness :
    (∀ f : ℕ, 0 ≤ (fun _ : ℕ => (0 : ℚ)) f) ∧
      (∀ t, 0 ≤ (evaluateTerm [("t", ⟨1, 1, [(1, 1)]⟩)] t).idf) ∧
      (∀ x : ℚ, 0 ≤ x → 0 ≤ id x) ∧
      (∀ t, ∀ p ∈ (evaluateTerm [("t", ⟨1, 1, [(1, 1)]⟩)] t).postings, 0 ≤ p.2) ∧
      (1 : ℕ) ≤ 2 ∧
      ((∀ did, lookupD (compareSim (fun _ => 0) id [("t", ⟨1, 1, [(1, 1)]⟩)] ["t"] 1) did 0 ≤
          lookupD (compareSim (fun _ => 0) id [("t", ⟨1, 1, [(1, 1)]⟩)] ["t"] 2) did 0) ∧
        ∀ did, did ∈ keysOf (compareSim (fun _ => 0) id [("t", ⟨1, 1, [(1, 1)]⟩)] ["t"] 1) →
          did ∈ keysOf (compareSim (fun _ => 0) id [("t", ⟨1, 1, [(1, 1)]⟩)] ["t"] 2)) := by
  have hidf : ∀ t, 0 ≤ (evaluateTerm [("t", ⟨1, 1, [(1, 1)]⟩)] t).idf := by
    intro t
    by_cases h : "t" = t <;> simp [evaluateTerm, alookup, h]
  have hpost : ∀ t, ∀ p ∈ (evaluateTerm [("t", ⟨1, 1, [(1, 1)]⟩)] t).postings, 0 ≤ p.2 := by
    intro t p hp
    by_cases h : "t" = t <;> simp [evaluateTerm, alookup, h] at hp
    · simp [hp]
  exact ⟨fun _ => le_refl 0, hidf, fun x h => h, hpost, by decide,
    pruning_monotonicity (fun _ => 0) id [("t", ⟨1, 1, [(1, 1)]⟩)] ["t"] 1 2
      (fun _ => le_refl 0) hidf (fun x h => h) hpost (by decide)⟩

/-! ## C3: behaviour when w_pr > 0 with no rank vector -/

theorem search_no_path (lnQ : ℕ → ℚ) (sqrtQ : ℚ → ℚ) (fs : String → List (ℕ × ℚ))
    (cache : T1Cache) (idx : T1Index) (qts : List String) (topK : ℕ)
    (wCos wPr : ℚ) (npr : Bool) :
    search lnQ sqrtQ fs cache idx qts topK none wCos wPr npr =
      ((compareSim lnQ sqrtQ idx qts topK).mergeSort (fun a b => b.2 ≤ a.2), cache) :=
  rfl

/-- **C3** (amended) — The configuration `w2 > 0` with no rank-vector path is
rejected at the CLI boundary (`p.error` in `main` of `src/index.py`,
modelled by `cliWeightsOk`), but the engine's `search` function itself does
not fail there: with no path supplied its result is the cosine-only ranking,
identical for every choice of fusion weights. -/
theorem fusion_weight_validation (w1 w2 : ℚ) (h : 0 < w2) :
    cliWeightsOk w1 w2 none = false ∧
      ∀ (lnQ : ℕ → ℚ) (sqrtQ : ℚ → ℚ) (fs : String → List (ℕ × ℚ))
        (cache : T1Cache) (idx : T1Index) (qts : List String) (topK : ℕ)
        (wCos wPr : ℚ) (npr : Bool),
        search lnQ sqrtQ fs cache idx qts topK none wCos wPr npr =
          search lnQ sqrtQ fs cache idx qts topK none 1 0 npr := by
  constructor
  · have hd : decide (0 < w2) = true := decide_eq_true h
    simp [cliWeightsOk, hd]
  · intro lnQ sqrtQ fs cache idx qts topK wCos wPr npr
    rfl

/-- Witness for C3 (amended) at `w1 = 0`, `w2 = 1`. -/
theorem fusion_weight_validation_witness :
    ((0 : ℚ) < 1) ∧ cliWeightsOk 0 1 none = false ∧
      search (fun _ => 0) id (fun _ => []) [] [] [] 10 none 1 0 true =
        search (fun _ => 0) id (fun _ => []) [] [] [] 10 none 1 0 true :=
  ⟨one_pos, (fusion_weight_validation 0 1 one_pos).1,
    ((fusion_weight_validation 0 1 one_pos).2 (fun _ => 0) id (fun _ => [])
      [] [] [] 10 1 0 true).trans
      ((fusion_weight_validation 0 1 one_pos).2 (fun _ => 0) id (fun _ => [])
        [] [] [] 10 1 0 true).symm⟩

/-- The **C3 counterexample** — calling the engine's `search` with
`w_pr = 2 > 0` and no pagerank path does not fail: it silently returns the
same non-empty cosine-only ranking as the `w_pr = 0` call, instead of the
descriptive error the claim requires. -/
theorem silent_cosine_only_fallback :
    (search (fun _ => 0) id (fun _ => []) [] [("t", ⟨1, 1, [(1, 1)]⟩)]
        ["t"] 10 none 1 2 true).1 =
      (search (fun _ => 0) id (fun _ => []) [] [("t", ⟨1, 1, [(1, 1)]⟩)]
        ["t"] 10 none 1 0 true).1 ∧
    (search (fun _ => 0) id (fun _ => []) [] [("t", ⟨1, 1, [(1, 1)]⟩)]
        ["t"] 10 none 1 2 true).1 = [(1, 1)] := by
  constructor
  · rfl
  · norm_num [search, searchPrScores, searchCache, compareSim, dedupFirst, termContribs,
      evaluateTerm, qnw, qNorm, qNormSums, qWeight, qCount, tfWeight, combine_scores,
      bumpFold, bump, List.mergeSort, alookup]

/-! ## C4: empty queries, unseen terms and zero query norms -/

theorem dedupFirst_subset : ∀ (l : List String), dedupFirst l ⊆ l
  | [] => by simp [dedupFirst]
  | x :: xs => by
    rw [dedupFirst]
    intro a ha
    rcases List.mem_cons.mp ha with rfl | ha
    · exact List.mem_cons_self _ _
    · exact List.mem_cons_of_mem _
        (List.mem_of_mem_filter (dedupFirst_subset (xs.filter fun y => y ≠ x) ha))
termination_by l => l.length
decreasing_by
  simp only [List.length_cons]
  exact Nat.lt_succ_of_le (List.length_filter_le _ _)

theorem foldl_bumpFold_empty (F : String → List (ℕ × ℚ)) (ts : List String)
    (acc : List (ℕ × ℚ)) (h : ∀ t ∈ ts, F t = []) :
    ts.foldl (fun a t => bumpFold (F t) a) acc = acc := by
  induction ts generalizing acc with
  | nil => rfl
  | cons t rest ih =>
    simp only [List.foldl_cons]
    rw [h t (List.mem_cons_self _ _)]
    exact ih acc fun t' ht' => h t' (List.mem_cons_of_mem _ ht')

theorem mem_bump_snd_eq_zero [DecidableEq α] (l : List (α × ℚ)) (k : α) (v : ℚ)
    (hl : ∀ p ∈ l, p.2 = 0) (hv : v = 0) : ∀ p ∈ bump l k v, p.2 = 0 := by
  induction l with
  | nil =>
    intro p hp
    simp only [bump, List.mem_singleton] at hp
    rw [hp, hv]
  | cons e rest ih =>
    intro p hp
    by_cases h : e.1 = k
    · simp only [bump, if_pos h, List.mem_cons] at hp
      rcases hp with rfl | hp
      · have := hl e (List.mem_cons_self _ _)
        simp [this, hv]
      · exact hl p (List.mem_cons_of_mem _ hp)
    · simp only [bump, if_neg h, List.mem_cons] at hp
      rcases hp with rfl | hp
      · exact hl p (List.mem_cons_self _ _)
      · exact ih (fun q hq => hl q (List.mem_cons_of_mem _ hq)) p hp

theorem mem_bumpFold_snd_eq_zero [DecidableEq α] (contribs : List (α × ℚ))
    (acc : List (α × ℚ)) (hc : ∀ p ∈ contribs, p.2 = 0)
    (ha : ∀ p ∈ acc, p.2 = 0) : ∀ p ∈ bumpFold contribs acc, p.2 = 0 := by
  induction contribs generalizing acc with
  | nil => exact ha
  | cons c rest ih =>
    simp only [bumpFold, List.foldl_cons] at *
    exact ih _ (fun p hp => hc p (List.mem_cons_of_mem _ hp))
      (mem_bump_snd_eq_zero acc c.1 c.2 ha (hc c (List.mem_cons_self _ _)))

theorem mem_foldl_bumpFold_snd_eq_zero (F : String → List (ℕ × ℚ)) (ts : List String)
    (acc : List (ℕ × ℚ)) (hF : ∀ t ∈ ts, ∀ p ∈ F t, p.2 = 0)
    (ha : ∀ p ∈ acc, p.2 = 0) :
    ∀ p ∈ ts.foldl (fun a t => bumpFold (F t) a) acc, p.2 = 0 := by
  induction ts generalizing acc with
  | nil => exact ha
  | cons t rest ih =>
    simp only [List.foldl_cons]
    exact ih _ (fun t' ht' => hF t' (List.mem_cons_of_mem _ ht'))
      (mem_bumpFold_snd_eq_zero _ acc (hF t (List.mem_cons_self _ _)) ha)

/-- **C4** (amended) — When every query term has an empty postings list (in
particular, when all terms are unseen, and also for the empty query), the
engine's `search` returns the empty result; and whenever the query norm is
0, no normalization division is performed (the guard yields 0) and every
candidate the engine does surface carries score exactly 0.  The claim's
stronger statement — that a query norm of 0 always yields an *empty* result
— fails when a matched term has idf 0 yet non-empty postings (see the
counterexample). -/
theorem empty_and_zero_norm_queries (lnQ : ℕ → ℚ) (sqrtQ : ℚ → ℚ)
    (fs : String → List (ℕ × ℚ)) (cache : T1Cache) (idx : T1Index)
    (qts : List String) (topK : ℕ) (wCos wPr : ℚ) (npr : Bool) :
    ((∀ t ∈ qts, (evaluateTerm idx t).postings = []) →
      (search lnQ sqrtQ fs cache idx qts topK none wCos wPr npr).1 = []) ∧
    (qNorm lnQ sqrtQ idx qts = 0 →
      ∀ p ∈ (search lnQ sqrtQ fs cache idx qts topK none wCos wPr npr).1, p.2 = 0) := by
  constructor
  · intro h
    rw [search_no_path]
    have hsim : compareSim lnQ sqrtQ idx qts topK = [] := by
      unfold compareSim
      apply foldl_bumpFold_empty
      intro t ht
      unfold termContribs
      rw [h t (dedupFirst_subset qts ht)]
      simp
    rw [hsim]
    exact (List.mergeSort_perm [] _).eq_nil
  · intro h p hp
    rw [search_no_path] at hp
    have hqnw : ∀ t, qnw lnQ sqrtQ idx qts t = 0 := by
      intro t
      unfold qnw
      rw [h]
      simp
    have hsim : ∀ q ∈ compareSim lnQ sqrtQ idx qts topK, q.2 = 0 := by
      unfold compareSim
      apply mem_foldl_bumpFold_snd_eq_zero
      · intro t _ q hq
        unfold termContribs at hq
        obtain ⟨r, _, rfl⟩ := List.mem_map.mp hq
        rw [hqnw t, mul_zero]
      · intro q hq
        exact absurd hq (List.not_mem_nil q)
    exact hsim p ((List.mergeSort_perm _ _).subset hp)

/-- Witness for C4 (amended): empty index, query `["x"]`. -/
theorem empty_and_zero_norm_queries_witness :
    (∀ t ∈ ["x"], (evaluateTerm [] t).postings = []) ∧
      qNorm (fun _ => 0) id [] ["x"] = 0 ∧
      (search (fun _ => 0) id (fun _ => []) [] [] ["x"] 10 none 1 0 true).1 = [] ∧
      (∀ p ∈ (search (fun _ => 0) id (fun _ => []) [] [] ["x"] 10 none 1 0 true).1,
        p.2 = 0) := by
  have h1 : ∀ t ∈ ["x"], (evaluateTerm ([] : T1Index) t).postings = [] := by
    intro t _
    rfl
  have h2 : qNorm (fun _ => 0) id [] ["x"] = 0 := by
    norm_num [qNorm, qNormSums, qWeight, qCount, tfWeight, evaluateTerm, alookup]
  exact ⟨h1, h2,
    (empty_and_zero_norm_queries (fun _ => 0) id (fun _ => []) [] [] ["x"] 10 1 0 true).1 h1,
    (empty_and_zero_norm_queries (fun _ => 0) id (fun _ => []) [] [] ["x"] 10 1 0 true).2 h2⟩

/-- The **C4 counterexample** — a query whose single term is *matched* with
idf 0 (possible whenever a term occurs in every document, `idf = ln(N/df) =
0`) has query norm 0, yet `search` surfaces the term's candidate document
with score 0 instead of returning the empty list the claim requires. -/
theorem zero_norm_query_surfaces_candidates :
    qNorm (fun _ => 0) id [("t", ⟨1, 0, [(1, 1/2)]⟩)] ["t"] = 0 ∧
      (search (fun _ => 0) id (fun _ => []) [] [("t", ⟨1, 0, [(1, 1/2)]⟩)]
        ["t"] 10 none 1 0 true).1 = [(1, 0)] := by
  constructor
  · norm_num [qNorm, qNormSums, qWeight, qCount, tfWeight, evaluateTerm, alookup]
  · norm_num [search, searchPrScores, searchCache, compareSim, dedupFirst, termContribs,
      evaluateTerm, qnw, qNorm, qNormSums, qWeight, qCount, tfWeight, combine_scores,
      bumpFold, bump, List.mergeSort, alookup]

/-! ## C5: who truncates the returned list -/

theorem keysOf_combine_scores (sim : List (ℕ × ℚ)) (pr : Option (List (ℕ × ℚ)))
    (wCos wPr : ℚ) :
    (combine_scores sim pr wCos wPr).map Prod.fst = sim.map Prod.fst := by
  cases pr with
  | none => rfl
  | some prs =>
    simp only [combine_scores]
    split <;> split
    · rfl
    · simp
    · rfl
    · simp

/-- **C5** (amended) — The task-1 engine (`search` in `src/task1/search.py`)
never truncates the returned list: its ranking contains exactly the
documents surfaced by `compare`'s per-term top-K windows (`top_k` only
bounds candidates per term).  The web engine (`WebSearchEngine.search` in
`src/task2/web_search.py`), by contrast, returns at most `top_k` entries —
it applies `[:top_k]` itself (see the counterexample for a dropped
candidate). -/
theorem engine_returns_all_candidates (lnQ : ℕ → ℚ) (sqrtQ : ℚ → ℚ)
    (fs : String → List (ℕ × ℚ)) (cache : T1Cache) (idx : T1Index)
    (qts : List String) (topK : ℕ) (path : Option String) (wCos wPr : ℚ)
    (npr : Bool) :
    (((search lnQ sqrtQ fs cache idx qts topK path wCos wPr npr).1).map Prod.fst).Perm
      ((compareSim lnQ sqrtQ idx qts topK).map Prod.fst) ∧
    ∀ (dict : List (String × ℚ)) (postings : List (String × List (ℕ × ℚ)))
      (docNorms : List (ℕ × ℚ)) (tokens : List String) (topK' : ℕ)
      (pr : Option (List (ℕ × ℚ))) (w1 w2 : ℚ) (npr' : Bool),
      (webSearch lnQ sqrtQ dict postings docNorms tokens topK' pr w1 w2 npr').length ≤
        topK' := by
  constructor
  · have h1 : (search lnQ sqrtQ fs cache idx qts topK path wCos wPr npr).1 =
        (combine_scores (compareSim lnQ sqrtQ idx qts topK)
          (searchPrScores fs cache path wPr npr) wCos wPr).mergeSort
            (fun a b => b.2 ≤ a.2) := rfl
    rw [h1, ← keysOf_combine_scores (compareSim lnQ sqrtQ idx qts topK)
      (searchPrScores fs cache path wPr npr) wCos wPr]
    exact (List.mergeSort_perm _ _).map Prod.fst
  · intro dict postings docNorms tokens topK' pr w1 w2 npr'
    have hbound : ∀ (c : Prop) (_ : Decidable c) (l : List (ℕ × ℚ)) (n : ℕ),
        (if c then ([] : List (ℕ × ℚ)) else l.take n).length ≤ n := by
      intro c inst l n
      split
      · simp
      · exact List.length_take_le _ _
    unfold webSearch
    split
    · simp
    · exact hbound _ _ _ _

/-- The **C5 counterexample** — `WebSearchEngine.search` truncates the
returned list itself: with two candidate documents (both surfaced by the
query term's postings) and `top_k = 1`, document 2 appears in the `top_k=2`
ranking but is dropped from the `top_k=1` ranking by the engine's own
`[:top_k]`, not by any caller. -/
theorem web_engine_truncates_results :
    2 ∈ ((webSearch (fun _ => 0) id [("t", 1)] [("t", [(1, 1), (2, 1)])]
        [(1, 1), (2, 1)] ["t"] 2 none 1 0 true).map Prod.fst) ∧
    2 ∉ ((webSearch (fun _ => 0) id [("t", 1)] [("t", [(1, 1), (2, 1)])]
        [(1, 1), (2, 1)] ["t"] 1 none 1 0 true).map Prod.fst) := by
  have h2 : webSearch (fun _ => 0) id [("t", 1)] [("t", [(1, 1), (2, 1)])]
      [(1, 1), (2, 1)] ["t"] 2 none 1 0 true = [(1, 1), (2, 1)] := by
    norm_num [webSearch, webTermFreqs, web_combine_scores, tfWeight, bumpFold, bump,
      List.mergeSort, alookup, lookupD, minMaxNormalize, List.filterMap]
  have h1 : webSearch (fun _ => 0) id [("t", 1)] [("t", [(1, 1), (2, 1)])]
      [(1, 1), (2, 1)] ["t"] 1 none 1 0 true = [(1, 1)] := by
    norm_num [webSearch, webTermFreqs, web_combine_scores, tfWeight, bumpFold, bump,
      List.mergeSort, alookup, lookupD, minMaxNormalize, List.filterMap]
  rw [h1, h2]
  constructor
  · simp
  · simp

/-! ## C6: order of the final ranking -/

/-- **C6** (amended) — The final candidate list returned by `search` is
sorted by final score descending; the sort is stable, so candidates with
equal final scores keep the *insertion order* of the similarity map (the
order in which `compare` first touched them), which is not in general
ascending document-id order (see the counterexample). -/
theorem final_ranking_sorted_descending (lnQ : ℕ → ℚ) (sqrtQ : ℚ → ℚ)
    (fs : String → List (ℕ × ℚ)) (cache : T1Cache) (idx : T1Index)
    (qts : List String) (topK : ℕ) (path : Option String) (wCos wPr : ℚ)
    (npr : Bool) :
    List.Pairwise (fun a b : ℕ × ℚ => b.2 ≤ a.2)
      (search lnQ sqrtQ fs cache idx qts topK path wCos wPr npr).1 := by
  have h1 : (search lnQ sqrtQ fs cache idx qts topK path wCos wPr npr).1 =
      (combine_scores (compareSim lnQ sqrtQ idx qts topK)
        (searchPrScores fs cache path wPr npr) wCos wPr).mergeSort
          (fun a b => b.2 ≤ a.2) := rfl
  rw [h1]
  have htrans : ∀ a b c : ℕ × ℚ, (decide (b.2 ≤ a.2)) = true →
      (decide (c.2 ≤ b.2)) = true → (decide (c.2 ≤ a.2)) = true := by
    intro a b c h1 h2
    simp only [decide_eq_true_eq] at *
    exact le_trans h2 h1
  have htotal : ∀ a b : ℕ × ℚ,
      ((decide (b.2 ≤ a.2)) || (decide (a.2 ≤ b.2))) = true := by
    intro a b
    simp only [Bool.or_eq_true, decide_eq_true_eq]
    exact le_total _ _
  exact (List.sorted_mergeSort htrans htotal _).imp (by intro a b h; simpa using h)

/-- The **C6 counterexample** — on an index `invert.py` itself would emit
for the corpus `{doc 2: "t", doc 5: "t t"}` (idf = ln(2/2) = 0, postings
ordered tf-descending: doc 5 before doc 2), the query `"t"` gives both
documents the same final score 0, and `search` returns doc 5 *before*
doc 2: equal-score candidates keep insertion order, not the claimed
ascending document-id order. -/
theorem final_tie_keeps_insertion_order :
    (search (fun _ => 0) id (fun _ => []) [] [("t", ⟨2, 0, [(5, 0), (2, 0)]⟩)]
        ["t"] 10 none 1 0 true).1 = [(5, 0), (2, 0)] ∧
    ¬ List.Pairwise (fun a b : ℕ × ℚ => b.2 < a.2 ∨ (a.2 = b.2 ∧ a.1 < b.1))
        [((5 : ℕ), (0 : ℚ)), (2, 0)] := by
  constructor
  · norm_num [search, searchPrScores, searchCache, compareSim, dedupFirst, termContribs,
      evaluateTerm, qnw, qNorm, qNormSums, qWeight, qCount, tfWeight, combine_scores,
      bumpFold, bump, List.mergeSort, alookup]
  · intro h
    have := (List.pairwise_cons.mp h).1 (2, 0) (by simp)
    norm_num at this

/-! ## C8: fusion linearity -/

/-- **C8** (amended) — In both `combine_scores` implementations
(`src/task1/search.py` and `src/task2/web_search.py`): with `w_pr = 0` the
final scores are the cosine scores, unchanged; with `w_cos = 0, w_pr = 1`
and a *non-empty* rank vector, every candidate's final score is exactly its
rank score (0 for documents absent from the vector).  With an empty (or
absent) rank vector the functions return the cosine scores unchanged
instead — the claim's "final = rank_score" then fails (see the
counterexample). -/
theorem fusion_linearity :
    (∀ (sim : List (ℕ × ℚ)) (pr : Option (List (ℕ × ℚ))) (wCos : ℚ),
      combine_scores sim pr wCos 0 = sim) ∧
    (∀ (sim prs : List (ℕ × ℚ)), prs ≠ [] →
      combine_scores sim (some prs) 0 1 = sim.map fun p => (p.1, lookupD prs p.1 0)) ∧
    (∀ (cos pr : List (ℕ × ℚ)) (w1 : ℚ), web_combine_scores cos pr w1 0 = cos) ∧
    (∀ (cos pr : List (ℕ × ℚ)), pr ≠ [] →
      web_combine_scores cos pr 0 1 = cos.map fun p => (p.1, lookupD pr p.1 0)) := by
  refine ⟨?_, ?_, ?_, ?_⟩
  · intro sim pr wCos
    cases pr with
    | none => rfl
    | some prs =>
      simp only [combine_scores]
      split_ifs <;> simp_all [zero_div]
  · intro sim prs hne
    simp only [combine_scores]
    have hcond : ¬((0 : ℚ) + 1 ≠ 0 ∧ 1 / 1000000 < |(0 : ℚ) + 1 - 1|) := by
      intro ⟨_, habs⟩
      norm_num at habs
    rw [if_neg hcond, if_neg hcond, if_neg (by simp [hne])]
    congr 1
    funext p
    ring_nf
  · intro cos pr w1
    simp [web_combine_scores]
  · intro cos pr hne
    unfold web_combine_scores
    rw [if_neg (by simp [hne])]
    congr 1
    funext p
    ring_nf

/-- Witness for C8 (amended) at concrete non-empty inputs. -/
theorem fusion_linearity_witness :
    combine_scores [(1, 5)] (some [(1, 2)]) 3 0 = [(1, 5)] ∧
      ([((1 : ℕ), (2 : ℚ))] ≠ []) ∧
      combine_scores [(1, 5)] (some [(1, 2)]) 0 1 =
        [(1, 5)].map (fun p => (p.1, lookupD [(1, 2)] p.1 0)) ∧
      web_combine_scores [(1, 5)] [(1, 2)] 3 0 = [(1, 5)] ∧
      web_combine_scores [(1, 5)] [(1, 2)] 0 1 =
        [(1, 5)].map fun p => (p.1, lookupD [(1, 2)] p.1 0) := by
  have hne : ([((1 : ℕ), (2 : ℚ))] : List (ℕ × ℚ)) ≠ [] := by simp
  exact ⟨fusion_linearity.1 [(1, 5)] (some [(1, 2)]) 3, hne,
    fusion_linearity.2.1 [(1, 5)] [(1, 2)] hne,
    fusion_linearity.2.2.1 [(1, 5)] [(1, 2)] 3,
    fusion_linearity.2.2.2 [(1, 5)] [(1, 2)] hne⟩

/-- The **C8 counterexample** — with `w_cos = 0, w_pr = 1` and an *empty*
supplied rank vector, `combine_scores` returns the cosine score unchanged
(5), while the claim demands the rank score of a document absent from the
rank vector, i.e. 0. -/
theorem fusion_empty_rank_vector :
    lookupD (combine_scores [(1, 5)] (some []) 0 1) 1 0 = 5 ∧
      lookupD ([] : List (ℕ × ℚ)) 1 0 = 0 ∧ (5 : ℚ) ≠ 0 := by
  refine ⟨?_, rfl, by norm_num⟩
  norm_num [combine_scores, lookupD]

/-! ## C9: the process-wide pagerank cache -/

theorem alookup_append_of_none [DecidableEq α] (l : List (α × β)) (k : α) (v : β)
    (h : alookup l k = none) : alookup (l ++ [(k, v)]) k = some v := by
  induction l with
  | nil => simp [alookup]
  | cons e rest ih =>
    by_cases he : e.1 = k
    · simp [alookup, he] at h
    · rw [List.cons_append]
      have h' : alookup rest k = none := by
        simpa [alookup, he] using h
      simpa [alookup, he] using ih h'

theorem load_pagerank_cache_hit (fs fs' : String → List (ℕ × ℚ)) (cache : T1Cache)
    (path : String) (normalize : Bool) :
    load_pagerank_scores fs' (load_pagerank_scores fs cache path normalize).2
        path normalize =
      ((load_pagerank_scores fs cache path normalize).1,
        (load_pagerank_scores fs cache path normalize).2) := by
  unfold load_pagerank_scores
  cases h : alookup cache (path, normalize) with
  | some s => simp [h]
  | none =>
    simp only [h]
    rw [alookup_append_of_none cache (path, normalize) _ h]

/-- **C9** (amended) — `search`'s ranking is a deterministic function of its
arguments, the cache state and the file contents, but `load_pagerank_scores`
memoizes per `(path, normalize)` in the process-wide `_PAGERANK_CACHE`: once
a path has been loaded, a later load — and hence a later `search` call with
the same path — returns the scores read at the first call, regardless of the
file's contents at the time of the second call.  The claim's "no
process-lifetime state, always reflects the file's contents at call time"
fails (see the counterexample). -/
theorem pagerank_cache_stickiness (fs fs' : String → List (ℕ × ℚ))
    (cache : T1Cache) (path : String) (normalize : Bool) :
    (load_pagerank_scores fs' (load_pagerank_scores fs cache path normalize).2
        path normalize =
      ((load_pagerank_scores fs cache path normalize).1,
        (load_pagerank_scores fs cache path normalize).2)) ∧
    ∀ (lnQ : ℕ → ℚ) (sqrtQ : ℚ → ℚ) (idx : T1Index) (qts : List String)
      (topK : ℕ) (wCos wPr : ℚ),
      (search lnQ sqrtQ fs'
          (search lnQ sqrtQ fs cache idx qts topK (some path) wCos wPr normalize).2
          idx qts topK (some path) wCos wPr normalize).1 =
        (search lnQ sqrtQ fs cache idx qts topK (some path) wCos wPr normalize).1 := by
  refine ⟨load_pagerank_cache_hit fs fs' cache path normalize, ?_⟩
  intro lnQ sqrtQ idx qts topK wCos wPr
  by_cases hw : wPr = 0
  · subst hw
    simp [search, searchPrScores, searchCache]
  · have hps : searchPrScores fs'
        (searchCache fs cache (some path) wPr normalize)
        (some path) wPr normalize =
        searchPrScores fs cache (some path) wPr normalize := by
      simp only [searchPrScores, searchCache, if_pos hw]
      rw [load_pagerank_cache_hit fs fs' cache path normalize]
    simp only [search]
    rw [hps]

/-- The **C9 counterexample** — two `search` calls with the same pagerank
path but different file contents at the two call times: the second call
returns the ranking computed from the *first* call's file contents
(score 10), not the ranking a fresh process would compute from the file's
current contents (score 20). -/
theorem stale_pagerank_cache :
    (search (fun _ => 0) id (fun _ => [(1, 20)])
        ((search (fun _ => 0) id (fun _ => [(1, 10)]) [] [("t", ⟨1, 1, [(1, 1)]⟩)]
          ["t"] 10 (some "p") 0 1 false).2)
        [("t", ⟨1, 1, [(1, 1)]⟩)] ["t"] 10 (some "p") 0 1 false).1 = [(1, 10)] ∧
    (search (fun _ => 0) id (fun _ => [(1, 20)]) [] [("t", ⟨1, 1, [(1, 1)]⟩)]
        ["t"] 10 (some "p") 0 1 false).1 = [(1, 20)] ∧
    ([((1 : ℕ), (10 : ℚ))] : List (ℕ × ℚ)) ≠ [(1, 20)] := by
  refine ⟨?_, ?_, by norm_num⟩
  · norm_num [search, searchPrScores, searchCache, load_pagerank_scores, compareSim,
      dedupFirst, termContribs, evaluateTerm, qnw, qNorm, qNormSums, qWeight, qCount,
      tfWeight, combine_scores, bumpFold, bump, List.mergeSort, alookup, lookupD,
      minMaxNormalize]
  · norm_num [search, searchPrScores, searchCache, load_pagerank_scores, compareSim,
      dedupFirst, termContribs, evaluateTerm, qnw, qNorm, qNormSums, qWeight, qCount,
      tfWeight, combine_scores, bumpFold, bump, List.mergeSort, alookup, lookupD,
      minMaxNormalize]
